import Mathlib

/-!
Shallow embedding of `art::gc::accounting::SpaceBitmap<kAlignment>` from
`runtime/gc/accounting/space_bitmap.h`, together with proofs about its
addressing arithmetic, bit mutation, range visiting and dual-bitmap sweep.

Machine integers are modelled as `Nat` with explicit wrap-around
(`% 2 ^ kBitsPerIntPtrT ws`) exactly where the C++ relies on unsigned
overflow (the `HasAddress` underflow idiom).  The template parameter
`kAlignment` and the platform word size `sizeof(intptr_t)` are carried as
explicit `Nat` parameters `kA` and `ws`.

Function bodies that are present in the header are translated from the
source.  Bodies that the header only declares (`Test`, `Modify`,
`VisitMarkedRange`, `SweepWalk`, `Create`, `ComputeBitmapSize`) are
modelled from the specification; each such definition says so in its
doc comment.
-/

/-- Number of bits in a bitmap word: `kBitsPerIntPtrT = CHAR_BIT * sizeof(intptr_t)`,
expressed as a function of the word size in bytes `ws = sizeof(intptr_t)`. -/
def kBitsPerIntPtrT (ws : Nat) : Nat := 8 * ws

/-- The `SpaceBitmap` object (space_bitmap.h:252-269).  The backing store
`bitmap_begin_` is `none` for a null pointer, otherwise the list of word
values; `mem_map_` (an OS resource handle) is not modelled.  The field
default values mirror the C++ member initializers. -/
structure SpaceBitmap where
  bitmap_begin_ : Option (List Nat) := none
  bitmap_size_ : Nat := 0
  heap_begin_ : Nat := 0
  heap_limit_ : Nat := 0
  name_ : String := ""

namespace SpaceBitmap

/-- Words of the backing store (empty for an invalid bitmap). -/
def words (bm : SpaceBitmap) : List Nat := bm.bitmap_begin_.getD []

/-- Value of backing word `i` (`bitmap_begin_[i]`), reading 0 out of range. -/
def wordAt (bm : SpaceBitmap) (i : Nat) : Nat := (words bm).getD i 0

/-- Store `w` into backing word `i` (`bitmap_begin_[i] = w`). -/
def setWord (bm : SpaceBitmap) (i : Nat) (w : Nat) : SpaceBitmap :=
  { bm with bitmap_begin_ := some ((words bm).set i w) }

/-- `SpaceBitmap::OffsetToIndex` (space_bitmap.h:67-69):
`offset / kAlignment / kBitsPerIntPtrT`. -/
def OffsetToIndex (kA ws offset : Nat) : Nat :=
  offset / kA / kBitsPerIntPtrT ws

/-- `SpaceBitmap::IndexToOffset` (space_bitmap.h:73-76):
`index * kAlignment * kBitsPerIntPtrT`. -/
def IndexToOffset (kA ws index : Nat) : Nat :=
  index * kA * kBitsPerIntPtrT ws

/-- `SpaceBitmap::OffsetBitIndex` (space_bitmap.h:81-83):
`(offset / kAlignment) % kBitsPerIntPtrT`. -/
def OffsetBitIndex (kA ws offset : Nat) : Nat :=
  (offset / kA) % kBitsPerIntPtrT ws

/-- `SpaceBitmap::OffsetToMask` (space_bitmap.h:87-89):
`1 << OffsetBitIndex(offset)`. -/
def OffsetToMask (kA ws offset : Nat) : Nat :=
  1 <<< OffsetBitIndex kA ws offset

/-- `SpaceBitmap::Size` (space_bitmap.h:172-174): size in bytes of the store. -/
def Size (bm : SpaceBitmap) : Nat := bm.bitmap_size_

/-- `SpaceBitmap::HeapSize` (space_bitmap.h:177-179):
`IndexToOffset(Size() / sizeof(intptr_t))`. -/
def HeapSize (kA ws : Nat) (bm : SpaceBitmap) : Nat :=
  IndexToOffset kA ws (Size bm / ws)

/-- `SpaceBitmap::HeapBegin` (space_bitmap.h:188-190). -/
def HeapBegin (bm : SpaceBitmap) : Nat := bm.heap_begin_

/-- `SpaceBitmap::HeapLimit` (space_bitmap.h:193-195). -/
def HeapLimit (bm : SpaceBitmap) : Nat := bm.heap_limit_

/-- `SpaceBitmap::IsValid` (space_bitmap.h:224-226): `bitmap_begin_ != nullptr`. -/
def IsValid (bm : SpaceBitmap) : Bool := decide (bm.bitmap_begin_ ≠ none)

/-- `SpaceBitmap::HasAddress` (space_bitmap.h:119-125).  The C++ computes
`offset = reinterpret_cast<uintptr_t>(obj) - heap_begin_` with unsigned
wrap-around; for addresses below `heap_begin_` the subtraction underflows to
a very large value.  We model the wrap explicitly modulo the word modulus. -/
def HasAddress (kA ws : Nat) (bm : SpaceBitmap) (a : Nat) : Bool :=
  let offset := (a + 2 ^ kBitsPerIntPtrT ws - bm.heap_begin_) % 2 ^ kBitsPerIntPtrT ws
  let index := OffsetToIndex kA ws offset
  decide (index < bm.bitmap_size_ / ws)

/-- `SpaceBitmap::SetHeapSize` (space_bitmap.h:181-186).  The assignments are
performed, then `CHECK_EQ(HeapSize(), bytes)` runs; a failed `CHECK` is a
fatal abort, modelled as `none`. -/
def SetHeapSize (kA ws : Nat) (bm : SpaceBitmap) (bytes : Nat) : Option SpaceBitmap :=
  let bm' : SpaceBitmap :=
    { bm with heap_limit_ := bm.heap_begin_ + bytes,
              bitmap_size_ := OffsetToIndex kA ws bytes * ws }
  if HeapSize kA ws bm' = bytes then some bm' else none

/-- Loop body of `SpaceBitmap::VisitRange` (space_bitmap.h:127-132), with an
explicit fuel argument; the fuel `visit_end - visit_begin` used by
`VisitRange` dominates the iteration count whenever `0 < kA`. -/
def visitRangeGo (kA : Nat) : Nat → Nat → Nat → List Nat
  | 0, _, _ => []
  | fuel + 1, visit_begin, visit_end =>
    if visit_begin < visit_end then
      visit_begin :: visitRangeGo kA fuel (visit_begin + kA) visit_end
    else []

/-- `SpaceBitmap::VisitRange` (space_bitmap.h:127-132): visit every address
`visit_begin, visit_begin + kAlignment, ...` strictly below `visit_end`,
unconditionally.  The returned list is the sequence of visited addresses. -/
def VisitRange (kA : Nat) (visit_begin visit_end : Nat) : List Nat :=
  visitRangeGo kA (visit_end - visit_begin) visit_begin visit_end

/-- Modelled from the spec: `SpaceBitmap::ComputeBitmapSize` is declared at
space_bitmap.h:214 but defined outside the sources at hand.  Spec section 2:
the backing store covers `ceil(capacity / alignment / wordBits) * wordSize`
bytes. -/
def ComputeBitmapSize (kA ws capacity : Nat) : Nat :=
  (capacity + kA * kBitsPerIntPtrT ws - 1) / (kA * kBitsPerIntPtrT ws) * ws

/-- Modelled from the spec: the factory `SpaceBitmap::Create` /
`CreateFromMemMap` (space_bitmap.h:48-56) is declared but defined outside the
sources at hand.  Spec sections 2-3: a fresh zero-initialized backing region
of `ComputeBitmapSize(capacity)` bytes covering
`[heap_begin, heap_begin + heap_capacity)`. -/
def Create (kA ws : Nat) (nm : String) (heap_begin heap_capacity : Nat) : SpaceBitmap :=
  let bitmap_size := ComputeBitmapSize kA ws heap_capacity
  { bitmap_begin_ := some (List.replicate (bitmap_size / ws) 0),
    bitmap_size_ := bitmap_size,
    heap_begin_ := heap_begin,
    heap_limit_ := heap_begin + heap_capacity,
    name_ := nm }

/-- Modelled from the spec: the body of `SpaceBitmap::Test` (declared at
space_bitmap.h:115, defined outside the sources at hand).  Spec section 4.2:
a plain atomic load of the word containing the bit, masked. -/
def Test (kA ws : Nat) (bm : SpaceBitmap) (a : Nat) : Bool :=
  let offset := a - bm.heap_begin_
  decide (wordAt bm (OffsetToIndex kA ws offset) &&& OffsetToMask kA ws offset ≠ 0)

/-- Modelled from the spec: the body of `SpaceBitmap::Modify` (declared at
space_bitmap.h:249-250, defined outside the sources at hand).  Spec section
4.2: a read-modify-write of the target word with OR (when setting) or
AND-NOT (when clearing), returning the bit's value before the call.  The
sequential state transition of the atomic operation is modelled. -/
def Modify (kSetBit : Bool) (kA ws : Nat) (bm : SpaceBitmap) (a : Nat) :
    Bool × SpaceBitmap :=
  let offset := a - bm.heap_begin_
  let index := OffsetToIndex kA ws offset
  let mask := OffsetToMask kA ws offset
  let old_word := wordAt bm index
  let new_word := if kSetBit then old_word ||| mask else Nat.ldiff old_word mask
  (decide (old_word &&& mask ≠ 0), setWord bm index new_word)

/-- `SpaceBitmap::Set` (space_bitmap.h:92-94): `Modify<true>(obj)`. -/
def Set (kA ws : Nat) (bm : SpaceBitmap) (a : Nat) : Bool × SpaceBitmap :=
  Modify true kA ws bm a

/-- `SpaceBitmap::Clear` (space_bitmap.h:97-99): `Modify<false>(obj)`. -/
def Clear (kA ws : Nat) (bm : SpaceBitmap) (a : Nat) : Bool × SpaceBitmap :=
  Modify false kA ws bm a

/-- Ascending list of the set-bit positions below `nbits` of a word value. -/
def wordBitsList (w nbits : Nat) : List Nat :=
  (List.range nbits).filter (fun j => w.testBit j)

/-- Word-at-a-time scan skeleton shared by the range-visiting and sweep
algorithms (spec sections 4.3 and 4.5): scan the backing words with indices
`iS..iE`, masking off the bits below `bitS` in the first word and the bits at
or above `bitE` in the last word, and emit the global bit numbers of the
surviving set bits in ascending order.  `f` reads the word at an index and
`B` is the number of bits per word. -/
def scanWords (f : Nat → Nat) (B iS iE bitS bitE : Nat) : List Nat :=
  (List.range (iE + 1 - iS)).flatMap (fun d =>
    let i := iS + d
    let w0 := f i
    let w1 := if i = iS then (w0 >>> bitS) <<< bitS else w0
    let w2 := if i = iE then w1 % 2 ^ bitE else w1
    (wordBitsList w2 B).map (fun j => i * B + j))

/-- Modelled from the spec: the body of `SpaceBitmap::VisitMarkedRange`
(declared at space_bitmap.h:142-144, defined outside the sources at hand).
Spec section 4.3: scan whole backing words at a time over the words covering
`[visit_begin, visit_end)`, mask the first and last words so that bits outside
the range are dropped, and enumerate the set bits of each word in ascending
order.  The returned list is the sequence of visited addresses. -/
def VisitMarkedRange (kA ws : Nat) (bm : SpaceBitmap) (visit_begin visit_end : Nat) :
    List Nat :=
  let B := kBitsPerIntPtrT ws
  let offset_start := visit_begin - bm.heap_begin_
  let offset_end := visit_end - bm.heap_begin_
  let index_start := OffsetToIndex kA ws offset_start
  let index_end := OffsetToIndex kA ws offset_end
  let bit_start := offset_start / kA % B
  let bit_end := offset_end / kA % B
  (scanWords (wordAt bm) B index_start index_end bit_start bit_end).map
    (fun n => bm.heap_begin_ + n * kA)

/-- Split a list into consecutive batches of `cap` elements (the last batch
may be shorter); models the fixed-capacity reporting buffer of `SweepWalk`.
`cap = 0` is never used (the buffer capacity is a positive constant). -/
def chunkList (cap : Nat) : List α → List (List α)
  | [] => []
  | a :: l =>
    if _h : cap = 0 then []
    else (a :: l).take cap :: chunkList cap ((a :: l).drop cap)
  termination_by l => l.length
  decreasing_by
    simp only [List.length_drop, List.length_cons]
    omega

/-- Modelled from the spec: the body of `SpaceBitmap::SweepWalk` (declared at
space_bitmap.h:161-162, defined outside the sources at hand).  Spec section
4.5: walk the words covering `[base, mx)`, compute the garbage bits of each
word pair as `liveWord & ~markWord`, and report the corresponding addresses
in ascending order, batched into a fixed-capacity buffer of `cap` addresses
with the callback invoked once per full (or final partial) buffer.  The
returned list is the sequence of batches passed to the callback. -/
def SweepWalk (kA ws : Nat) (live mark : SpaceBitmap) (base mx cap : Nat) :
    List (List Nat) :=
  let B := kBitsPerIntPtrT ws
  let offset_start := base - live.heap_begin_
  let offset_end := mx - live.heap_begin_
  let index_start := OffsetToIndex kA ws offset_start
  let index_end := OffsetToIndex kA ws offset_end
  let bit_start := offset_start / kA % B
  let bit_end := offset_end / kA % B
  let garbage := scanWords (fun i => Nat.ldiff (wordAt live i) (wordAt mark i))
    B index_start index_end bit_start bit_end
  chunkList cap (garbage.map (fun n => live.heap_begin_ + n * kA))

/-- Well-formedness of a bitmap state, as established by the factories:
the store holds exactly `bitmap_size_ / ws` words, the covered capacity
`heap_limit_ - heap_begin_` is within the store's reach (the store size is
the capacity rounded up to whole words), and the covered words fit inside
the address space. -/
structure WF (kA ws : Nat) (bm : SpaceBitmap) : Prop where
  hkA : 0 < kA
  hws : 0 < ws
  valid : bm.bitmap_begin_.isSome = true
  words_len : (words bm).length = bm.bitmap_size_ / ws
  begin_le_limit : bm.heap_begin_ ≤ bm.heap_limit_
  covered : bm.heap_limit_ - bm.heap_begin_ ≤ HeapSize kA ws bm
  fits : bm.heap_begin_ + HeapSize kA ws bm ≤ 2 ^ kBitsPerIntPtrT ws

/-! ## Arithmetic helper lemmas -/

theorem offsetToIndex_eq (kA ws off : Nat) :
    OffsetToIndex kA ws off = off / (kA * kBitsPerIntPtrT ws) := by
  unfold OffsetToIndex
  exact Nat.div_div_eq_div_mul off kA (kBitsPerIntPtrT ws)

theorem indexToOffset_eq (kA ws i : Nat) :
    IndexToOffset kA ws i = i * (kA * kBitsPerIntPtrT ws) := by
  unfold IndexToOffset
  exact Nat.mul_assoc i kA (kBitsPerIntPtrT ws)

theorem kBitsPerIntPtrT_pos {ws : Nat} (hws : 0 < ws) : 0 < kBitsPerIntPtrT ws := by
  unfold kBitsPerIntPtrT; omega

theorem alignBits_pos {kA ws : Nat} (hkA : 0 < kA) (hws : 0 < ws) :
    0 < kA * kBitsPerIntPtrT ws :=
  Nat.mul_pos hkA (kBitsPerIntPtrT_pos hws)

/-! ## Claim theorems: addressing arithmetic and sizing -/

/-- C6: `IndexToOffset` is a right inverse of `OffsetToIndex`: for every word
index `i`, `OffsetToIndex (IndexToOffset i) = i`, and for every offset `off`,
`IndexToOffset (OffsetToIndex off) ≤ off < IndexToOffset (OffsetToIndex off + 1)`,
so reconstruction recovers the base offset of the word containing `off`. -/
theorem index_offset_round_trip (kA ws i off : Nat) (hkA : 0 < kA) (hws : 0 < ws) :
    OffsetToIndex kA ws (IndexToOffset kA ws i) = i ∧
    IndexToOffset kA ws (OffsetToIndex kA ws off) ≤ off ∧
    off < IndexToOffset kA ws (OffsetToIndex kA ws off + 1) := by
  have hAB : 0 < kA * kBitsPerIntPtrT ws := alignBits_pos hkA hws
  refine ⟨?_, ?_, ?_⟩
  · rw [offsetToIndex_eq, indexToOffset_eq]
    exact Nat.mul_div_cancel i hAB
  · rw [offsetToIndex_eq, indexToOffset_eq]
    exact Nat.div_mul_le_self off _
  · rw [offsetToIndex_eq, indexToOffset_eq]
    exact (Nat.div_lt_iff_lt_mul hAB).mp (Nat.lt_succ_self _)

/-- Witness for `index_offset_round_trip` at `kA = 8`, `ws = 8`, `i = 3`,
`off = 1000`. -/
theorem index_offset_round_trip_witness :
    OffsetToIndex 8 8 (IndexToOffset 8 8 3) = 3 ∧
    IndexToOffset 8 8 (OffsetToIndex 8 8 1000) ≤ 1000 ∧
    1000 < IndexToOffset 8 8 (OffsetToIndex 8 8 1000 + 1) :=
  index_offset_round_trip 8 8 3 1000 (by decide) (by decide)

/-- C7: `SetHeapSize bytes` hits the fatal `CHECK_EQ(HeapSize(), bytes)` if and
only if `bytes` is not a multiple of `kAlignment * kBitsPerIntPtrT`; on success
the new state satisfies `HeapSize() = bytes` and
`HeapLimit() = HeapBegin() + bytes`. -/
theorem setHeapSize_spec (kA ws : Nat) (bm : SpaceBitmap) (bytes : Nat)
    (hkA : 0 < kA) (hws : 0 < ws) :
    (SetHeapSize kA ws bm bytes = none ↔ ¬ (kA * kBitsPerIntPtrT ws) ∣ bytes) ∧
    ∀ bm', SetHeapSize kA ws bm bytes = some bm' →
      HeapSize kA ws bm' = bytes ∧ HeapLimit bm' = HeapBegin bm' + bytes := by
  have hAB : 0 < kA * kBitsPerIntPtrT ws := alignBits_pos hkA hws
  set bm' : SpaceBitmap :=
    { bm with heap_limit_ := bm.heap_begin_ + bytes,
              bitmap_size_ := OffsetToIndex kA ws bytes * ws } with hbm'
  have hsize : HeapSize kA ws bm' = bytes / (kA * kBitsPerIntPtrT ws) *
      (kA * kBitsPerIntPtrT ws) := by
    show IndexToOffset kA ws (Size bm' / ws) = _
    have : Size bm' = OffsetToIndex kA ws bytes * ws := rfl
    rw [this, Nat.mul_div_cancel _ hws, indexToOffset_eq, offsetToIndex_eq]
  have hiff : HeapSize kA ws bm' = bytes ↔ (kA * kBitsPerIntPtrT ws) ∣ bytes := by
    rw [hsize]
    constructor
    · intro h
      exact Dvd.intro _ ((Nat.mul_comm _ _).trans h)
    · intro h
      exact Nat.div_mul_cancel h
  have hdef : SetHeapSize kA ws bm bytes =
      if HeapSize kA ws bm' = bytes then some bm' else none := rfl
  constructor
  · rw [hdef]
    constructor
    · intro h hdvd
      rw [if_pos (hiff.mpr hdvd)] at h
      exact Option.noConfusion h
    · intro hnd
      rw [if_neg (fun hc => hnd (hiff.mp hc))]
  · intro bm2 h2
    rw [hdef] at h2
    by_cases hc : HeapSize kA ws bm' = bytes
    · rw [if_pos hc] at h2
      cases h2
      exact ⟨hc, rfl⟩
    · rw [if_neg hc] at h2
      exact Option.noConfusion h2

/-- Witness for `setHeapSize_spec` at `kA = 8`, `ws = 8`, a fresh bitmap and
`bytes = 1024` (two whole words of coverage). -/
theorem setHeapSize_spec_witness :
    (SetHeapSize 8 8 (Create 8 8 "bm" 0 1024) 1024 = none ↔
      ¬ (8 * kBitsPerIntPtrT 8) ∣ 1024) ∧
    ∀ bm', SetHeapSize 8 8 (Create 8 8 "bm" 0 1024) 1024 = some bm' →
      HeapSize 8 8 bm' = 1024 ∧ HeapLimit bm' = HeapBegin bm' + 1024 :=
  setHeapSize_spec 8 8 (Create 8 8 "bm" 0 1024) 1024 (by decide) (by decide)

/-! ## VisitRange -/

theorem visitRangeGo_eq (kA : Nat) (hkA : 0 < kA) :
    ∀ (fuel b e : Nat), e - b ≤ fuel →
      visitRangeGo kA fuel b e =
        (List.range ((e - b + kA - 1) / kA)).map (fun k => b + k * kA) := by
  intro fuel
  induction fuel with
  | zero =>
    intro b e h
    have he : e - b = 0 := Nat.le_zero.mp h
    rw [visitRangeGo, he]
    rw [Nat.zero_add, Nat.div_eq_of_lt (by omega)]
    simp
  | succ fuel ih =>
    intro b e h
    rw [visitRangeGo]
    by_cases hbe : b < e
    · rw [if_pos hbe]
      rw [ih (b + kA) e (by omega)]
      have hx : 1 ≤ e - b := by omega
      have hsub : e - (b + kA) = e - b - kA := by omega
      have hcount : (e - b + kA - 1) / kA = (e - (b + kA) + kA - 1) / kA + 1 := by
        rcases Nat.le_total (e - b) kA with hle | hge
        · have h1 : e - (b + kA) = 0 := by omega
          rw [h1, Nat.zero_add]
          have h2 : (kA - 1) / kA = 0 := Nat.div_eq_of_lt (by omega)
          rw [h2]
          have h3 : e - b + kA - 1 = (e - b - 1) + kA := by omega
          rw [h3, Nat.add_div_right _ hkA, Nat.div_eq_of_lt (by omega)]
        · have h1 : e - (b + kA) + kA - 1 = e - b - 1 := by omega
          have h3 : e - b + kA - 1 = (e - b - 1) + kA := by omega
          rw [h1, h3, Nat.add_div_right _ hkA]
      rw [hcount, List.range_succ_eq_map, List.map_cons, List.map_map]
      simp only [Nat.zero_mul, Nat.add_zero]
      refine congrArg (b :: ·) ?_
      apply List.map_congr_left
      intro k _
      show b + kA + k * kA = b + (k + 1) * kA
      ring
    · rw [if_neg hbe]
      have he : e - b = 0 := by omega
      rw [he, Nat.zero_add, Nat.div_eq_of_lt (by omega)]
      simp

/-- C8: `VisitRange(begin, end, visitor)` unconditionally visits exactly the
addresses `begin, begin + kAlignment, begin + 2 * kAlignment, ...` strictly
below `end`, in ascending order, independent of any bit state. -/
theorem visitRange_spec (kA b e : Nat) (hkA : 0 < kA) :
    VisitRange kA b e = (List.range ((e - b + kA - 1) / kA)).map (fun k => b + k * kA) ∧
    List.Pairwise (· < ·) (VisitRange kA b e) ∧
    ∀ a, a ∈ VisitRange kA b e ↔ ∃ k, a = b + k * kA ∧ a < e := by
  have heq : VisitRange kA b e =
      (List.range ((e - b + kA - 1) / kA)).map (fun k => b + k * kA) :=
    visitRangeGo_eq kA hkA (e - b) b e (Nat.le_refl _)
  refine ⟨heq, ?_, ?_⟩
  · rw [heq]
    refine List.pairwise_map.mpr ?_
    refine (List.pairwise_lt_range _).imp ?_
    intro x y hxy
    exact Nat.add_lt_add_left ((Nat.mul_lt_mul_right hkA).mpr hxy) b
  · intro a
    rw [heq]
    simp only [List.mem_map, List.mem_range]
    constructor
    · rintro ⟨k, hk, rfl⟩
      refine ⟨k, rfl, ?_⟩
      have h1 : k + 1 ≤ (e - b + kA - 1) / kA := hk
      have h2 : (k + 1) * kA ≤ e - b + kA - 1 := (Nat.le_div_iff_mul_le hkA).mp h1
      have hbe : b < e := by
        by_contra hc
        have hz : e - b = 0 := by omega
        rw [hz, Nat.zero_add, Nat.div_eq_of_lt (by omega)] at hk
        omega
      have hkk : (k + 1) * kA = k * kA + kA := by ring
      rw [hkk] at h2
      set t := k * kA with ht
      omega
    · rintro ⟨k, rfl, hlt⟩
      refine ⟨k, ?_, rfl⟩
      refine (Nat.le_div_iff_mul_le hkA).mpr ?_
      have hkk : (k + 1) * kA = k * kA + kA := by ring
      rw [hkk]
      set t := k * kA with ht
      omega

/-- Witness for `visitRange_spec` at `kA = 8`, range `[0, 20)`. -/
theorem visitRange_spec_witness :
    VisitRange 8 0 20 = (List.range ((20 - 0 + 8 - 1) / 8)).map (fun k => 0 + k * 8) ∧
    List.Pairwise (· < ·) (VisitRange 8 0 20) ∧
    ∀ a, a ∈ VisitRange 8 0 20 ↔ ∃ k, a = 0 + k * 8 ∧ a < 20 :=
  visitRange_spec 8 0 20 (by decide)

/-- C9: `IsValid()` returns true exactly when the backing-store pointer is
non-null, and a default-constructed `SpaceBitmap` has a null backing-store
pointer, zero sizes and bounds, and `IsValid() = false`. -/
theorem isValid_default_spec :
    (∀ bm : SpaceBitmap, IsValid bm = true ↔ bm.bitmap_begin_ ≠ none) ∧
    ({} : SpaceBitmap).bitmap_begin_ = none ∧
    ({} : SpaceBitmap).bitmap_size_ = 0 ∧
    ({} : SpaceBitmap).heap_begin_ = 0 ∧
    ({} : SpaceBitmap).heap_limit_ = 0 ∧
    IsValid ({} : SpaceBitmap) = false := by
  refine ⟨?_, rfl, rfl, rfl, rfl, rfl⟩
  intro bm
  simp [IsValid]

/-! ## HasAddress -/

theorem heapSize_eq (kA ws : Nat) (bm : SpaceBitmap) :
    HeapSize kA ws bm = bm.bitmap_size_ / ws * (kA * kBitsPerIntPtrT ws) := by
  unfold HeapSize Size
  rw [indexToOffset_eq]

/-- C1 is false as stated: on the bitmap created for capacity 8 at heap begin 0
with `kA = 8`, `ws = 8` (one backing word covering 512 bytes of heap),
`HasAddress 16` is true although `16` is at or above `heapLimit = 8`. -/
theorem hasAddress_heapLimit_counterexample :
    HasAddress 8 8 (Create 8 8 "bm" 0 8) 16 = true ∧
    ¬ (16 < HeapLimit (Create 8 8 "bm" 0 8)) := by decide

/-- C1 (amended): for a well-formed bitmap, `HasAddress a` is true iff
`heapBegin ≤ a < heapBegin + HeapSize()`, the range actually covered by the
backing words.  Every address below `heapBegin` is rejected through the
intentional unsigned underflow, and every address at or beyond the covered
words is rejected by the index bound; when the capacity is an exact multiple
of `kAlignment * kBitsPerIntPtrT` this range coincides with
`[heapBegin, heapLimit)`, but addresses in the rounding slack at or above
`heapLimit` are accepted. -/
theorem hasAddress_iff_lt_heapSize (kA ws : Nat) (bm : SpaceBitmap) (h : WF kA ws bm)
    (a : Nat) (ha : a < 2 ^ kBitsPerIntPtrT ws) :
    HasAddress kA ws bm a = true ↔
      bm.heap_begin_ ≤ a ∧ a < bm.heap_begin_ + HeapSize kA ws bm := by
  have hAB : 0 < kA * kBitsPerIntPtrT ws := alignBits_pos h.hkA h.hws
  have hHS := heapSize_eq kA ws bm
  have hM : 0 < 2 ^ kBitsPerIntPtrT ws := Nat.pos_pow_of_pos _ (by omega)
  have hbeginM : bm.heap_begin_ ≤ 2 ^ kBitsPerIntPtrT ws := by
    have := h.fits
    omega
  simp only [HasAddress, decide_eq_true_eq]
  by_cases hcase : bm.heap_begin_ ≤ a
  · have h1 : a + 2 ^ kBitsPerIntPtrT ws - bm.heap_begin_ =
        (a - bm.heap_begin_) + 2 ^ kBitsPerIntPtrT ws := by omega
    rw [h1, Nat.add_mod_right, Nat.mod_eq_of_lt (by omega), offsetToIndex_eq]
    rw [Nat.div_lt_iff_lt_mul hAB]
    constructor
    · intro hidx
      exact ⟨hcase, by omega⟩
    · intro hr
      omega
  · have hlt : a < bm.heap_begin_ := by omega
    have h1 : a + 2 ^ kBitsPerIntPtrT ws - bm.heap_begin_ =
        2 ^ kBitsPerIntPtrT ws - (bm.heap_begin_ - a) := by omega
    rw [h1, Nat.mod_eq_of_lt (by omega), offsetToIndex_eq]
    constructor
    · intro hidx
      exfalso
      have hge : bm.bitmap_size_ / ws * (kA * kBitsPerIntPtrT ws) ≤
          2 ^ kBitsPerIntPtrT ws - (bm.heap_begin_ - a) := by
        have := h.fits
        omega
      have : bm.bitmap_size_ / ws ≤
          (2 ^ kBitsPerIntPtrT ws - (bm.heap_begin_ - a)) / (kA * kBitsPerIntPtrT ws) :=
        (Nat.le_div_iff_mul_le hAB).mpr hge
      omega
    · intro hr
      exact absurd hr.1 (by omega)

/-- Witness for `hasAddress_iff_lt_heapSize` on the capacity-8 bitmap at
address 16. -/
theorem hasAddress_iff_lt_heapSize_witness :
    HasAddress 8 8 (Create 8 8 "bm" 0 8) 16 = true ↔
      (Create 8 8 "bm" 0 8).heap_begin_ ≤ 16 ∧
      16 < (Create 8 8 "bm" 0 8).heap_begin_ + HeapSize 8 8 (Create 8 8 "bm" 0 8) :=
  hasAddress_iff_lt_heapSize 8 8 (Create 8 8 "bm" 0 8)
    ⟨by decide, by decide, by decide, by decide, by decide, by decide, by decide⟩
    16 (by decide)

/-- C10: `HasAddress` is computed only from `heap_begin_` and the backing-store
size in whole words, never from `heap_limit_`: it is invariant under any change
of `heap_limit_`, and on a well-formed bitmap it returns true for every address
in the rounding-slack region
`heapLimit ≤ a < heapBegin + (Size() / ws) * kAlignment * kBitsPerIntPtrT`. -/
theorem hasAddress_slack_region (kA ws : Nat) (bm : SpaceBitmap) (h : WF kA ws bm)
    (a : Nat) (h1 : bm.heap_limit_ ≤ a)
    (h2 : a < bm.heap_begin_ + bm.bitmap_size_ / ws * (kA * kBitsPerIntPtrT ws)) :
    HasAddress kA ws bm a = true ∧
    ∀ l, HasAddress kA ws { bm with heap_limit_ := l } a = HasAddress kA ws bm a := by
  have hAB : 0 < kA * kBitsPerIntPtrT ws := alignBits_pos h.hkA h.hws
  have hHS := heapSize_eq kA ws bm
  refine ⟨?_, fun l => rfl⟩
  have hba : bm.heap_begin_ ≤ a := Nat.le_trans h.begin_le_limit h1
  have haM : a < 2 ^ kBitsPerIntPtrT ws := by
    have := h.fits
    omega
  simp only [HasAddress, decide_eq_true_eq]
  have heq : a + 2 ^ kBitsPerIntPtrT ws - bm.heap_begin_ =
      (a - bm.heap_begin_) + 2 ^ kBitsPerIntPtrT ws := by omega
  rw [heq, Nat.add_mod_right, Nat.mod_eq_of_lt (by omega), offsetToIndex_eq]
  rw [Nat.div_lt_iff_lt_mul hAB]
  omega

/-- Witness for `hasAddress_slack_region` on the capacity-8 bitmap: address 16
lies in the slack region `[8, 512)` above `heapLimit = 8`. -/
theorem hasAddress_slack_region_witness :
    HasAddress 8 8 (Create 8 8 "bm" 0 8) 16 = true ∧
    ∀ l, HasAddress 8 8 { Create 8 8 "bm" 0 8 with heap_limit_ := l } 16 =
      HasAddress 8 8 (Create 8 8 "bm" 0 8) 16 :=
  hasAddress_slack_region 8 8 (Create 8 8 "bm" 0 8)
    ⟨by decide, by decide, by decide, by decide, by decide, by decide, by decide⟩
    16 (by decide) (by decide)

/-! ## Bit mutation and query -/

theorem offsetToMask_pow (kA ws off : Nat) :
    OffsetToMask kA ws off = 2 ^ OffsetBitIndex kA ws off := by
  unfold OffsetToMask
  exact Nat.one_shiftLeft _

theorem decide_land_two_pow_eq_testBit (w j : Nat) :
    decide (w &&& 2 ^ j ≠ 0) = w.testBit j := by
  cases hb : w.testBit j with
  | false =>
    have hz : w &&& 2 ^ j = 0 := by
      apply Nat.eq_of_testBit_eq
      intro k
      rw [Nat.testBit_land, Nat.zero_testBit]
      by_cases hk : k = j
      · subst hk; rw [hb]; simp
      · rw [Nat.testBit_two_pow_of_ne (fun he => hk he.symm)]; simp
    simp [hz]
  | true =>
    have hnz : w &&& 2 ^ j ≠ 0 := by
      intro hz
      have hbit : (w &&& 2 ^ j).testBit j = false := by
        rw [hz]; exact Nat.zero_testBit j
      rw [Nat.testBit_land, hb, Nat.testBit_two_pow_self] at hbit
      simp at hbit
    simp [hnz]

theorem test_eq_testBit (kA ws : Nat) (bm : SpaceBitmap) (a : Nat) :
    Test kA ws bm a =
      (wordAt bm (OffsetToIndex kA ws (a - bm.heap_begin_))).testBit
        (OffsetBitIndex kA ws (a - bm.heap_begin_)) := by
  simp only [Test, offsetToMask_pow]
  exact decide_land_two_pow_eq_testBit _ _

theorem words_setWord (bm : SpaceBitmap) (i w : Nat) :
    words (setWord bm i w) = (words bm).set i w := rfl

theorem setWord_heap_begin (bm : SpaceBitmap) (i w : Nat) :
    (setWord bm i w).heap_begin_ = bm.heap_begin_ := rfl

theorem wordAt_setWord_self (bm : SpaceBitmap) (i w : Nat)
    (h : i < (words bm).length) : wordAt (setWord bm i w) i = w := by
  unfold wordAt
  rw [words_setWord]
  simp [List.getElem?_set_self h]

theorem wordAt_setWord_ne (bm : SpaceBitmap) (i j w : Nat) (hij : i ≠ j) :
    wordAt (setWord bm i w) j = wordAt bm j := by
  unfold wordAt
  rw [words_setWord]
  simp [List.getElem?_set_ne hij]

theorem set_fst (kA ws : Nat) (bm : SpaceBitmap) (a : Nat) :
    (Set kA ws bm a).1 =
      decide (wordAt bm (OffsetToIndex kA ws (a - bm.heap_begin_)) &&&
        OffsetToMask kA ws (a - bm.heap_begin_) ≠ 0) := rfl

theorem set_snd (kA ws : Nat) (bm : SpaceBitmap) (a : Nat) :
    (Set kA ws bm a).2 =
      setWord bm (OffsetToIndex kA ws (a - bm.heap_begin_))
        (wordAt bm (OffsetToIndex kA ws (a - bm.heap_begin_)) |||
          OffsetToMask kA ws (a - bm.heap_begin_)) := rfl

theorem clear_fst (kA ws : Nat) (bm : SpaceBitmap) (a : Nat) :
    (Clear kA ws bm a).1 =
      decide (wordAt bm (OffsetToIndex kA ws (a - bm.heap_begin_)) &&&
        OffsetToMask kA ws (a - bm.heap_begin_) ≠ 0) := rfl

theorem clear_snd (kA ws : Nat) (bm : SpaceBitmap) (a : Nat) :
    (Clear kA ws bm a).2 =
      setWord bm (OffsetToIndex kA ws (a - bm.heap_begin_))
        (Nat.ldiff (wordAt bm (OffsetToIndex kA ws (a - bm.heap_begin_)))
          (OffsetToMask kA ws (a - bm.heap_begin_))) := rfl

theorem index_lt_words_length {kA ws : Nat} {bm : SpaceBitmap} (h : WF kA ws bm)
    {a : Nat} (hba : bm.heap_begin_ ≤ a) (hal : a < bm.heap_limit_) :
    OffsetToIndex kA ws (a - bm.heap_begin_) < (words bm).length := by
  have hAB : 0 < kA * kBitsPerIntPtrT ws := alignBits_pos h.hkA h.hws
  have hcov := h.covered
  rw [heapSize_eq] at hcov
  rw [h.words_len, offsetToIndex_eq, Nat.div_lt_iff_lt_mul hAB]
  omega

theorem test_set_self {kA ws : Nat} {bm : SpaceBitmap} (h : WF kA ws bm)
    {a : Nat} (hba : bm.heap_begin_ ≤ a) (hal : a < bm.heap_limit_) :
    Test kA ws (Set kA ws bm a).2 a = true := by
  rw [set_snd, test_eq_testBit]
  simp only [setWord_heap_begin]
  rw [wordAt_setWord_self _ _ _ (index_lt_words_length h hba hal)]
  rw [offsetToMask_pow, Nat.testBit_lor, Nat.testBit_two_pow_self, Bool.or_true]

theorem test_clear_self {kA ws : Nat} {bm : SpaceBitmap} (h : WF kA ws bm)
    {a : Nat} (hba : bm.heap_begin_ ≤ a) (hal : a < bm.heap_limit_) :
    Test kA ws (Clear kA ws bm a).2 a = false := by
  rw [clear_snd, test_eq_testBit]
  simp only [setWord_heap_begin]
  rw [wordAt_setWord_self _ _ _ (index_lt_words_length h hba hal)]
  rw [offsetToMask_pow, Nat.testBit_ldiff, Nat.testBit_two_pow_self]
  simp

theorem modify_snd (kSetBit : Bool) (kA ws : Nat) (bm : SpaceBitmap) (a : Nat) :
    (Modify kSetBit kA ws bm a).2 =
      setWord bm (OffsetToIndex kA ws (a - bm.heap_begin_))
        (if kSetBit then
          wordAt bm (OffsetToIndex kA ws (a - bm.heap_begin_)) |||
            OffsetToMask kA ws (a - bm.heap_begin_)
        else
          Nat.ldiff (wordAt bm (OffsetToIndex kA ws (a - bm.heap_begin_)))
            (OffsetToMask kA ws (a - bm.heap_begin_))) := by
  cases kSetBit <;> rfl

theorem eq_of_index_bit_eq {kA ws g a b : Nat} (hkA : 0 < kA) (_hws : 0 < ws)
    (hga : g ≤ a) (hgb : g ≤ b) (hda : kA ∣ (a - g)) (hdb : kA ∣ (b - g))
    (hidx : OffsetToIndex kA ws (b - g) = OffsetToIndex kA ws (a - g))
    (hbit : OffsetBitIndex kA ws (b - g) = OffsetBitIndex kA ws (a - g)) :
    b = a := by
  obtain ⟨na, hna⟩ := hda
  obtain ⟨nb, hnb⟩ := hdb
  simp only [OffsetToIndex, OffsetBitIndex] at hidx hbit
  rw [hna, hnb, Nat.mul_div_cancel_left _ hkA, Nat.mul_div_cancel_left _ hkA]
    at hidx hbit
  have hn : nb = na := by
    calc nb = kBitsPerIntPtrT ws * (nb / kBitsPerIntPtrT ws) +
          nb % kBitsPerIntPtrT ws := (Nat.div_add_mod _ _).symm
      _ = kBitsPerIntPtrT ws * (na / kBitsPerIntPtrT ws) +
          na % kBitsPerIntPtrT ws := by rw [hidx, hbit]
      _ = na := Nat.div_add_mod _ _
  subst hn
  omega

theorem test_modify_other (kSetBit : Bool) {kA ws : Nat} {bm : SpaceBitmap}
    (h : WF kA ws bm) {a b : Nat}
    (hba : bm.heap_begin_ ≤ a) (hal : a < bm.heap_limit_)
    (hbb : bm.heap_begin_ ≤ b)
    (hda : kA ∣ (a - bm.heap_begin_)) (hdb : kA ∣ (b - bm.heap_begin_))
    (hne : b ≠ a) :
    Test kA ws (Modify kSetBit kA ws bm a).2 b = Test kA ws bm b := by
  by_cases hidx : OffsetToIndex kA ws (b - bm.heap_begin_) =
      OffsetToIndex kA ws (a - bm.heap_begin_)
  · have hbit : OffsetBitIndex kA ws (b - bm.heap_begin_) ≠
        OffsetBitIndex kA ws (a - bm.heap_begin_) :=
      fun hb => hne (eq_of_index_bit_eq h.hkA h.hws hba hbb hda hdb hidx hb)
    rw [modify_snd, test_eq_testBit]
    simp only [setWord_heap_begin]
    rw [hidx, wordAt_setWord_self _ _ _ (index_lt_words_length h hba hal)]
    rw [test_eq_testBit, hidx]
    cases kSetBit with
    | true =>
      rw [if_pos rfl, offsetToMask_pow, Nat.testBit_lor,
        Nat.testBit_two_pow_of_ne (Ne.symm hbit), Bool.or_false]
    | false =>
      rw [if_neg (by simp), offsetToMask_pow, Nat.testBit_ldiff,
        Nat.testBit_two_pow_of_ne (Ne.symm hbit)]
      simp
  · rw [modify_snd, test_eq_testBit]
    simp only [setWord_heap_begin]
    rw [wordAt_setWord_ne _ _ _ _ (fun he => hidx he.symm)]
    rw [test_eq_testBit]

theorem set_eq_modify (kA ws : Nat) (bm : SpaceBitmap) (a : Nat) :
    Set kA ws bm a = Modify true kA ws bm a := rfl

theorem clear_eq_modify (kA ws : Nat) (bm : SpaceBitmap) (a : Nat) :
    Clear kA ws bm a = Modify false kA ws bm a := rfl

/-- C4: for an aligned in-range address `a` on a well-formed bitmap, `Set a`
makes `Test a` true, `Clear a` makes `Test a` false, and neither call changes
the bit of any other aligned in-range address. -/
theorem set_clear_test_spec (kA ws : Nat) (bm : SpaceBitmap) (a : Nat)
    (h : WF kA ws bm) (hba : bm.heap_begin_ ≤ a) (hal : a < bm.heap_limit_)
    (hda : kA ∣ (a - bm.heap_begin_)) :
    Test kA ws (Set kA ws bm a).2 a = true ∧
    Test kA ws (Clear kA ws bm a).2 a = false ∧
    ∀ b, bm.heap_begin_ ≤ b → b < bm.heap_limit_ → kA ∣ (b - bm.heap_begin_) →
      b ≠ a →
      Test kA ws (Set kA ws bm a).2 b = Test kA ws bm b ∧
      Test kA ws (Clear kA ws bm a).2 b = Test kA ws bm b := by
  refine ⟨test_set_self h hba hal, test_clear_self h hba hal, ?_⟩
  intro b hbb _hbl hdb hne
  constructor
  · rw [set_eq_modify]
    exact test_modify_other true h hba hal hbb hda hdb hne
  · rw [clear_eq_modify]
    exact test_modify_other false h hba hal hbb hda hdb hne

/-- Witness for `set_clear_test_spec` on the capacity-1024 bitmap at `a = 8`. -/
theorem set_clear_test_spec_witness :
    Test 8 8 (Set 8 8 (Create 8 8 "bm" 0 1024) 8).2 8 = true ∧
    Test 8 8 (Clear 8 8 (Create 8 8 "bm" 0 1024) 8).2 8 = false ∧
    ∀ b, (Create 8 8 "bm" 0 1024).heap_begin_ ≤ b →
      b < (Create 8 8 "bm" 0 1024).heap_limit_ →
      8 ∣ (b - (Create 8 8 "bm" 0 1024).heap_begin_) → b ≠ 8 →
      Test 8 8 (Set 8 8 (Create 8 8 "bm" 0 1024) 8).2 b =
        Test 8 8 (Create 8 8 "bm" 0 1024) b ∧
      Test 8 8 (Clear 8 8 (Create 8 8 "bm" 0 1024) 8).2 b =
        Test 8 8 (Create 8 8 "bm" 0 1024) b :=
  set_clear_test_spec 8 8 (Create 8 8 "bm" 0 1024) 8
    ⟨by decide, by decide, by decide, by decide, by decide, by decide, by decide⟩
    (by decide) (by decide) (by decide)

/-- C5: `Set a` returns the value the bit held immediately before the call;
starting from a clear bit, two consecutive `Set a` calls return `false` and
then `true`. -/
theorem set_returns_previous_spec (kA ws : Nat) (bm : SpaceBitmap) (a : Nat)
    (h : WF kA ws bm) (hba : bm.heap_begin_ ≤ a) (hal : a < bm.heap_limit_) :
    (Set kA ws bm a).1 = Test kA ws bm a ∧
    (Test kA ws bm a = false →
      (Set kA ws bm a).1 = false ∧ (Set kA ws (Set kA ws bm a).2 a).1 = true) := by
  have hfst : ∀ bm2 : SpaceBitmap, (Set kA ws bm2 a).1 = Test kA ws bm2 a :=
    fun bm2 => rfl
  refine ⟨hfst bm, fun hfalse => ⟨(hfst bm).trans hfalse, ?_⟩⟩
  rw [hfst _]
  exact test_set_self h hba hal

/-- Witness for `set_returns_previous_spec` on the capacity-1024 bitmap at
`a = 16`. -/
theorem set_returns_previous_spec_witness :
    (Set 8 8 (Create 8 8 "bm" 0 1024) 16).1 = Test 8 8 (Create 8 8 "bm" 0 1024) 16 ∧
    (Test 8 8 (Create 8 8 "bm" 0 1024) 16 = false →
      (Set 8 8 (Create 8 8 "bm" 0 1024) 16).1 = false ∧
      (Set 8 8 (Set 8 8 (Create 8 8 "bm" 0 1024) 16).2 16).1 = true) :=
  set_returns_previous_spec 8 8 (Create 8 8 "bm" 0 1024) 16
    ⟨by decide, by decide, by decide, by decide, by decide, by decide, by decide⟩
    (by decide) (by decide)

/-! ## Word-at-a-time scanning -/

theorem mem_wordBitsList {w nbits j : Nat} :
    j ∈ wordBitsList w nbits ↔ j < nbits ∧ w.testBit j = true := by
  simp [wordBitsList, List.mem_filter, List.mem_range]

theorem testBit_maskLow {w s j : Nat} :
    ((w >>> s) <<< s).testBit j = (decide (s ≤ j) && w.testBit j) := by
  rw [Nat.testBit_shiftLeft, Nat.testBit_shiftRight]
  by_cases hs : s ≤ j
  · have hj : s + (j - s) = j := by omega
    simp [hs, hj, ge_iff_le]
  · simp [hs, ge_iff_le]

theorem mem_scanWords {f : Nat → Nat} {B iS iE bitS bitE n : Nat}
    (hB : 0 < B) (hbS : bitS < B) (hbE : bitE ≤ B) (hii : iS ≤ iE) :
    n ∈ scanWords f B iS iE bitS bitE ↔
      iS * B + bitS ≤ n ∧ n < iE * B + bitE ∧ (f (n / B)).testBit (n % B) = true := by
  simp only [scanWords, List.mem_flatMap, List.mem_range, List.mem_map]
  constructor
  · rintro ⟨d, hd, j, hj, rfl⟩
    rw [mem_wordBitsList] at hj
    obtain ⟨hjB, hbit⟩ := hj
    have hiE : iS + d ≤ iE := by omega
    have hfbit : (f (iS + d)).testBit j = true ∧
        (iS + d = iS → bitS ≤ j) ∧ (iS + d = iE → j < bitE) := by
      by_cases hE : iS + d = iE
      · rw [if_pos hE] at hbit
        by_cases hS : iS + d = iS
        · rw [if_pos hS, Nat.testBit_mod_two_pow, testBit_maskLow] at hbit
          simp only [Bool.and_eq_true, decide_eq_true_eq] at hbit
          exact ⟨hbit.2.2, fun _ => hbit.2.1, fun _ => hbit.1⟩
        · rw [if_neg hS, Nat.testBit_mod_two_pow] at hbit
          simp only [Bool.and_eq_true, decide_eq_true_eq] at hbit
          exact ⟨hbit.2, fun hc => absurd hc hS, fun _ => hbit.1⟩
      · rw [if_neg hE] at hbit
        by_cases hS : iS + d = iS
        · rw [if_pos hS, testBit_maskLow] at hbit
          simp only [Bool.and_eq_true, decide_eq_true_eq] at hbit
          exact ⟨hbit.2, fun _ => hbit.1, fun hc => absurd hc hE⟩
        · rw [if_neg hS] at hbit
          exact ⟨hbit, fun hc => absurd hc hS, fun hc => absurd hc hE⟩
    obtain ⟨hfb, hSc, hEc⟩ := hfbit
    have hdiv : ((iS + d) * B + j) / B = iS + d := by
      rw [Nat.mul_comm _ B, Nat.mul_add_div hB, Nat.div_eq_of_lt hjB, Nat.add_zero]
    have hmod : ((iS + d) * B + j) % B = j := by
      rw [Nat.mul_comm _ B, Nat.mul_add_mod, Nat.mod_eq_of_lt hjB]
    refine ⟨?_, ?_, by rw [hdiv, hmod]; exact hfb⟩
    · by_cases hS : iS + d = iS
      · have := hSc hS
        rw [hS]
        omega
      · have hgt : iS + 1 ≤ iS + d := by omega
        have hm : (iS + 1) * B ≤ (iS + d) * B := Nat.mul_le_mul_right B hgt
        have hm2 : (iS + 1) * B = iS * B + B := by ring
        linarith
    · by_cases hE : iS + d = iE
      · have := hEc hE
        rw [hE]
        omega
      · have hlt : iS + d + 1 ≤ iE := by omega
        have hm : (iS + d + 1) * B ≤ iE * B := Nat.mul_le_mul_right B hlt
        have hm2 : (iS + d + 1) * B = (iS + d) * B + B := by ring
        linarith
  · rintro ⟨h1, h2, h3⟩
    have hjB : n % B < B := Nat.mod_lt _ hB
    have hn : n = n / B * B + n % B := by
      have hdm := Nat.div_add_mod n B
      calc n = B * (n / B) + n % B := hdm.symm
        _ = n / B * B + n % B := by ring
    have hiSle : iS ≤ n / B := by
      by_contra hc
      push_neg at hc
      have hc' : n / B + 1 ≤ iS := hc
      have hm : (n / B + 1) * B ≤ iS * B := Nat.mul_le_mul_right B hc'
      have hm2 : (n / B + 1) * B = n / B * B + B := by ring
      linarith
    have hiEge : n / B ≤ iE := by
      by_contra hc
      push_neg at hc
      have hc' : iE + 1 ≤ n / B := hc
      have hm : (iE + 1) * B ≤ n / B * B := Nat.mul_le_mul_right B hc'
      have hm2 : (iE + 1) * B = iE * B + B := by ring
      omega
    have hiid : iS + (n / B - iS) = n / B := by omega
    refine ⟨n / B - iS, by omega, n % B, ?_, ?_⟩
    · rw [mem_wordBitsList, hiid]
      refine ⟨hjB, ?_⟩
      have hlowbit : n / B = iS → bitS ≤ n % B := by
        intro hiS
        rw [hiS] at hn
        linarith
      have hhighbit : n / B = iE → n % B < bitE := by
        intro hiE2
        rw [hiE2] at hn
        linarith
      by_cases hE : n / B = iE
      · rw [if_pos hE]
        by_cases hS : n / B = iS
        · rw [if_pos hS, Nat.testBit_mod_two_pow, testBit_maskLow]
          simp only [Bool.and_eq_true, decide_eq_true_eq]
          exact ⟨hhighbit hE, hlowbit hS, h3⟩
        · rw [if_neg hS, Nat.testBit_mod_two_pow]
          simp only [Bool.and_eq_true, decide_eq_true_eq]
          exact ⟨hhighbit hE, h3⟩
      · rw [if_neg hE]
        by_cases hS : n / B = iS
        · rw [if_pos hS, testBit_maskLow]
          simp only [Bool.and_eq_true, decide_eq_true_eq]
          exact ⟨hlowbit hS, h3⟩
        · rw [if_neg hS]
          exact h3
    · rw [hiid]
      exact hn.symm

theorem pairwise_scanWords (f : Nat → Nat) (B iS iE bitS bitE : Nat) (_hB : 0 < B) :
    List.Pairwise (· < ·) (scanWords f B iS iE bitS bitE) := by
  unfold scanWords
  rw [List.pairwise_flatMap]
  constructor
  · intro d _
    refine List.pairwise_map.mpr ?_
    refine List.Pairwise.imp ?_ ((List.pairwise_lt_range B).filter _)
    intro x y hxy
    exact Nat.add_lt_add_left hxy _
  · refine List.Pairwise.imp ?_ (List.pairwise_lt_range _)
    intro d1 d2 hd x hx y hy
    simp only [List.mem_map] at hx hy
    obtain ⟨j1, hj1, rfl⟩ := hx
    obtain ⟨j2, hj2, rfl⟩ := hy
    rw [mem_wordBitsList] at hj1 hj2
    have h1 : (iS + d1) * B + j1 < (iS + d1 + 1) * B := by
      have : (iS + d1 + 1) * B = (iS + d1) * B + B := by ring
      linarith [hj1.1]
    have h2 : (iS + d1 + 1) * B ≤ (iS + d2) * B :=
      Nat.mul_le_mul_right B (by omega)
    linarith

theorem offsetToIndex_mul_add_mod (kA ws off : Nat) :
    OffsetToIndex kA ws off * kBitsPerIntPtrT ws +
      off / kA % kBitsPerIntPtrT ws = off / kA := by
  unfold OffsetToIndex
  rw [Nat.mul_comm]
  exact Nat.div_add_mod _ _

theorem offsetToIndex_mul {kA : Nat} (ws n : Nat) (hkA : 0 < kA) :
    OffsetToIndex kA ws (n * kA) = n / kBitsPerIntPtrT ws := by
  unfold OffsetToIndex
  rw [Nat.mul_div_cancel _ hkA]

theorem offsetBitIndex_mul {kA : Nat} (ws n : Nat) (hkA : 0 < kA) :
    OffsetBitIndex kA ws (n * kA) = n % kBitsPerIntPtrT ws := by
  unfold OffsetBitIndex
  rw [Nat.mul_div_cancel _ hkA]

/-- C2: for any word-size-positive configuration and any aligned range
`[b, e)` at or above `heapBegin`, `VisitMarkedRange` visits exactly the
aligned addresses of `[b, e)` whose bit is set, each exactly once, in strictly
ascending address order, and no other address. -/
theorem visitMarkedRange_spec (kA ws : Nat) (bm : SpaceBitmap) (b e : Nat)
    (hkA : 0 < kA) (hws : 0 < ws)
    (hgb : bm.heap_begin_ ≤ b) (hbe : b ≤ e)
    (hdb : kA ∣ (b - bm.heap_begin_)) (hde : kA ∣ (e - bm.heap_begin_)) :
    List.Pairwise (· < ·) (VisitMarkedRange kA ws bm b e) ∧
    ∀ a, a ∈ VisitMarkedRange kA ws bm b e ↔
      b ≤ a ∧ a < e ∧ kA ∣ (a - bm.heap_begin_) ∧ Test kA ws bm a = true := by
  have hB : 0 < kBitsPerIntPtrT ws := kBitsPerIntPtrT_pos hws
  have hVMR : VisitMarkedRange kA ws bm b e =
      (scanWords (wordAt bm) (kBitsPerIntPtrT ws)
        (OffsetToIndex kA ws (b - bm.heap_begin_))
        (OffsetToIndex kA ws (e - bm.heap_begin_))
        ((b - bm.heap_begin_) / kA % kBitsPerIntPtrT ws)
        ((e - bm.heap_begin_) / kA % kBitsPerIntPtrT ws)).map
        (fun n => bm.heap_begin_ + n * kA) := rfl
  have hbS : (b - bm.heap_begin_) / kA % kBitsPerIntPtrT ws < kBitsPerIntPtrT ws :=
    Nat.mod_lt _ hB
  have hbE : (e - bm.heap_begin_) / kA % kBitsPerIntPtrT ws ≤ kBitsPerIntPtrT ws :=
    Nat.le_of_lt (Nat.mod_lt _ hB)
  have hii : OffsetToIndex kA ws (b - bm.heap_begin_) ≤
      OffsetToIndex kA ws (e - bm.heap_begin_) := by
    unfold OffsetToIndex
    exact Nat.div_le_div_right (Nat.div_le_div_right (by omega))
  have hoS : (b - bm.heap_begin_) / kA * kA = b - bm.heap_begin_ :=
    Nat.div_mul_cancel hdb
  have hoE : (e - bm.heap_begin_) / kA * kA = e - bm.heap_begin_ :=
    Nat.div_mul_cancel hde
  constructor
  · rw [hVMR]
    refine List.pairwise_map.mpr ?_
    refine List.Pairwise.imp ?_ (pairwise_scanWords _ _ _ _ _ _ hB)
    intro x y hxy
    exact Nat.add_lt_add_left ((Nat.mul_lt_mul_right hkA).mpr hxy) _
  · intro a
    rw [hVMR, List.mem_map]
    constructor
    · rintro ⟨n, hn, rfl⟩
      rw [mem_scanWords hB hbS hbE hii, offsetToIndex_mul_add_mod,
        offsetToIndex_mul_add_mod] at hn
      obtain ⟨hn1, hn2, hn3⟩ := hn
      have hm1 : (b - bm.heap_begin_) / kA * kA ≤ n * kA :=
        Nat.mul_le_mul_right kA hn1
      rw [hoS] at hm1
      have hm2 : (n + 1) * kA ≤ (e - bm.heap_begin_) / kA * kA :=
        Nat.mul_le_mul_right kA hn2
      rw [hoE] at hm2
      have hm3 : (n + 1) * kA = n * kA + kA := by ring
      refine ⟨by omega, by omega, ?_, ?_⟩
      · have harg : bm.heap_begin_ + n * kA - bm.heap_begin_ = n * kA := by omega
        rw [harg]
        exact dvd_mul_left kA n
      · have harg : bm.heap_begin_ + n * kA - bm.heap_begin_ = n * kA := by omega
        rw [test_eq_testBit, harg, offsetToIndex_mul ws n hkA,
          offsetBitIndex_mul ws n hkA]
        exact hn3
    · rintro ⟨hba', hae, hdvd, htest⟩
      have hga : bm.heap_begin_ ≤ a := Nat.le_trans hgb hba'
      have hoA : (a - bm.heap_begin_) / kA * kA = a - bm.heap_begin_ :=
        Nat.div_mul_cancel hdvd
      refine ⟨(a - bm.heap_begin_) / kA, ?_, by rw [hoA]; omega⟩
      rw [mem_scanWords hB hbS hbE hii, offsetToIndex_mul_add_mod,
        offsetToIndex_mul_add_mod]
      refine ⟨?_, ?_, ?_⟩
      · exact Nat.div_le_div_right (by omega)
      · have hlt : (a - bm.heap_begin_) / kA * kA <
            (e - bm.heap_begin_) / kA * kA := by
          rw [hoA, hoE]
          omega
        exact Nat.lt_of_mul_lt_mul_right hlt
      · rw [test_eq_testBit] at htest
        exact htest

/-- Witness for `visitMarkedRange_spec`: one backing word with value 5
(bits 0 and 2, i.e. addresses 0 and 16 at alignment 8), range `[0, 512)`. -/
theorem visitMarkedRange_spec_witness :
    List.Pairwise (· < ·)
      (VisitMarkedRange 8 8 ⟨some [5], 8, 0, 512, "bm"⟩ 0 512) ∧
    ∀ a, a ∈ VisitMarkedRange 8 8 ⟨some [5], 8, 0, 512, "bm"⟩ 0 512 ↔
      0 ≤ a ∧ a < 512 ∧ 8 ∣ (a - (⟨some [5], 8, 0, 512, "bm"⟩ : SpaceBitmap).heap_begin_) ∧
      Test 8 8 ⟨some [5], 8, 0, 512, "bm"⟩ a = true :=
  visitMarkedRange_spec 8 8 ⟨some [5], 8, 0, 512, "bm"⟩ 0 512
    (by decide) (by decide) (by decide) (by decide) (by decide) (by decide)

/-! ## Batched reporting -/

theorem chunkList_nil (cap : Nat) : chunkList cap ([] : List α) = [] := by
  rw [chunkList]

theorem chunkList_cons (cap : Nat) (a : α) (l : List α) (hcap : cap ≠ 0) :
    chunkList cap (a :: l) =
      (a :: l).take cap :: chunkList cap ((a :: l).drop cap) := by
  rw [chunkList, dif_neg hcap]

theorem flatten_chunkList (cap : Nat) (hcap : 0 < cap) (l : List α) :
    (chunkList cap l).flatten = l := by
  generalize hn : l.length = n
  induction n using Nat.strong_induction_on generalizing l with
  | _ n ih =>
    cases l with
    | nil => rw [chunkList_nil]; rfl
    | cons a t =>
      rw [chunkList_cons cap a t (by omega), List.flatten_cons]
      have hlt : ((a :: t).drop cap).length < n := by
        rw [List.length_drop]
        simp only [List.length_cons] at hn ⊢
        omega
      rw [ih _ hlt _ rfl]
      exact List.take_append_drop cap (a :: t)

theorem chunkList_sublist (cap : Nat) (l : List α) :
    ∀ c ∈ chunkList cap l, c.Sublist l := by
  generalize hn : l.length = n
  induction n using Nat.strong_induction_on generalizing l with
  | _ n ih =>
    cases l with
    | nil => rw [chunkList_nil]; intro c hc; cases hc
    | cons a t =>
      by_cases hcap : cap = 0
      · subst hcap
        rw [chunkList]
        intro c hc
        simp at hc
      · rw [chunkList_cons cap a t hcap]
        intro c hc
        rcases List.mem_cons.mp hc with hhd | htl
        · subst hhd
          exact List.take_sublist cap (a :: t)
        · have hlt : ((a :: t).drop cap).length < n := by
            rw [List.length_drop]
            simp only [List.length_cons] at hn ⊢
            omega
          exact (ih _ hlt _ rfl c htl).trans (List.drop_sublist cap (a :: t))

/-- C3: over bitmaps with identical alignment and the same `heap_begin_`,
`SweepWalk` reports exactly the aligned addresses of `[base, mx)` whose bit is
set in `live` and clear in `mark`, each exactly once, partitioned into batches
of at most `cap` addresses, ascending within each batch (and across batches),
and reports no other address. -/
theorem sweepWalk_spec (kA ws : Nat) (live mark : SpaceBitmap) (base mx cap : Nat)
    (hkA : 0 < kA) (hws : 0 < ws) (hcap : 0 < cap)
    (hbeg : mark.heap_begin_ = live.heap_begin_)
    (hgb : live.heap_begin_ ≤ base) (hbm : base ≤ mx)
    (hdb : kA ∣ (base - live.heap_begin_)) (hdm : kA ∣ (mx - live.heap_begin_)) :
    (∀ c ∈ SweepWalk kA ws live mark base mx cap, List.Pairwise (· < ·) c) ∧
    List.Pairwise (· < ·) (SweepWalk kA ws live mark base mx cap).flatten ∧
    ∀ a, a ∈ (SweepWalk kA ws live mark base mx cap).flatten ↔
      base ≤ a ∧ a < mx ∧ kA ∣ (a - live.heap_begin_) ∧
      Test kA ws live a = true ∧ Test kA ws mark a = false := by
  have hB : 0 < kBitsPerIntPtrT ws := kBitsPerIntPtrT_pos hws
  have hSW : SweepWalk kA ws live mark base mx cap =
      chunkList cap
        ((scanWords (fun i => Nat.ldiff (wordAt live i) (wordAt mark i))
          (kBitsPerIntPtrT ws)
          (OffsetToIndex kA ws (base - live.heap_begin_))
          (OffsetToIndex kA ws (mx - live.heap_begin_))
          ((base - live.heap_begin_) / kA % kBitsPerIntPtrT ws)
          ((mx - live.heap_begin_) / kA % kBitsPerIntPtrT ws)).map
          (fun n => live.heap_begin_ + n * kA)) := rfl
  have hbS : (base - live.heap_begin_) / kA % kBitsPerIntPtrT ws <
      kBitsPerIntPtrT ws := Nat.mod_lt _ hB
  have hbE : (mx - live.heap_begin_) / kA % kBitsPerIntPtrT ws ≤
      kBitsPerIntPtrT ws := Nat.le_of_lt (Nat.mod_lt _ hB)
  have hii : OffsetToIndex kA ws (base - live.heap_begin_) ≤
      OffsetToIndex kA ws (mx - live.heap_begin_) := by
    unfold OffsetToIndex
    exact Nat.div_le_div_right (Nat.div_le_div_right (by omega))
  have hoS : (base - live.heap_begin_) / kA * kA = base - live.heap_begin_ :=
    Nat.div_mul_cancel hdb
  have hoE : (mx - live.heap_begin_) / kA * kA = mx - live.heap_begin_ :=
    Nat.div_mul_cancel hdm
  have hgarbpw : List.Pairwise (· < ·)
      ((scanWords (fun i => Nat.ldiff (wordAt live i) (wordAt mark i))
        (kBitsPerIntPtrT ws)
        (OffsetToIndex kA ws (base - live.heap_begin_))
        (OffsetToIndex kA ws (mx - live.heap_begin_))
        ((base - live.heap_begin_) / kA % kBitsPerIntPtrT ws)
        ((mx - live.heap_begin_) / kA % kBitsPerIntPtrT ws)).map
        (fun n => live.heap_begin_ + n * kA)) := by
    refine List.pairwise_map.mpr ?_
    refine List.Pairwise.imp ?_ (pairwise_scanWords _ _ _ _ _ _ hB)
    intro x y hxy
    exact Nat.add_lt_add_left ((Nat.mul_lt_mul_right hkA).mpr hxy) _
  refine ⟨?_, ?_, ?_⟩
  · intro c hc
    rw [hSW] at hc
    exact List.Pairwise.sublist (chunkList_sublist cap _ c hc) hgarbpw
  · rw [hSW, flatten_chunkList cap hcap]
    exact hgarbpw
  · intro a
    rw [hSW, flatten_chunkList cap hcap, List.mem_map]
    constructor
    · rintro ⟨n, hn, rfl⟩
      rw [mem_scanWords hB hbS hbE hii, offsetToIndex_mul_add_mod,
        offsetToIndex_mul_add_mod] at hn
      obtain ⟨hn1, hn2, hn3⟩ := hn
      rw [Nat.testBit_ldiff, Bool.and_eq_true, Bool.not_eq_true'] at hn3
      have hm1 : (base - live.heap_begin_) / kA * kA ≤ n * kA :=
        Nat.mul_le_mul_right kA hn1
      rw [hoS] at hm1
      have hm2 : (n + 1) * kA ≤ (mx - live.heap_begin_) / kA * kA :=
        Nat.mul_le_mul_right kA hn2
      rw [hoE] at hm2
      have hm3 : (n + 1) * kA = n * kA + kA := by ring
      have harg : live.heap_begin_ + n * kA - live.heap_begin_ = n * kA := by omega
      refine ⟨by omega, by omega, ?_, ?_, ?_⟩
      · rw [harg]
        exact dvd_mul_left kA n
      · rw [test_eq_testBit, harg, offsetToIndex_mul ws n hkA,
          offsetBitIndex_mul ws n hkA]
        exact hn3.1
      · rw [test_eq_testBit, hbeg, harg, offsetToIndex_mul ws n hkA,
          offsetBitIndex_mul ws n hkA]
        exact hn3.2
    · rintro ⟨hba', hae, hdvd, htl, htm⟩
      have hga : live.heap_begin_ ≤ a := Nat.le_trans hgb hba'
      have hoA : (a - live.heap_begin_) / kA * kA = a - live.heap_begin_ :=
        Nat.div_mul_cancel hdvd
      refine ⟨(a - live.heap_begin_) / kA, ?_, by rw [hoA]; omega⟩
      rw [mem_scanWords hB hbS hbE hii, offsetToIndex_mul_add_mod,
        offsetToIndex_mul_add_mod]
      refine ⟨?_, ?_, ?_⟩
      · exact Nat.div_le_div_right (by omega)
      · have hlt : (a - live.heap_begin_) / kA * kA <
            (mx - live.heap_begin_) / kA * kA := by
          rw [hoA, hoE]
          omega
        exact Nat.lt_of_mul_lt_mul_right hlt
      · rw [Nat.testBit_ldiff, Bool.and_eq_true, Bool.not_eq_true']
        rw [test_eq_testBit] at htl
        rw [test_eq_testBit, hbeg] at htm
        exact ⟨htl, htm⟩

/-- Witness for `sweepWalk_spec`: live word 7 (addresses 0, 8, 16), mark word
2 (address 8); garbage is exactly addresses 0 and 16, batch capacity 1. -/
theorem sweepWalk_spec_witness :
    (∀ c ∈ SweepWalk 8 8 ⟨some [7], 8, 0, 512, "live"⟩ ⟨some [2], 8, 0, 512, "mark"⟩
        0 512 1, List.Pairwise (· < ·) c) ∧
    List.Pairwise (· < ·)
      (SweepWalk 8 8 ⟨some [7], 8, 0, 512, "live"⟩ ⟨some [2], 8, 0, 512, "mark"⟩
        0 512 1).flatten ∧
    ∀ a, a ∈ (SweepWalk 8 8 ⟨some [7], 8, 0, 512, "live"⟩
        ⟨some [2], 8, 0, 512, "mark"⟩ 0 512 1).flatten ↔
      0 ≤ a ∧ a < 512 ∧
      8 ∣ (a - (⟨some [7], 8, 0, 512, "live"⟩ : SpaceBitmap).heap_begin_) ∧
      Test 8 8 ⟨some [7], 8, 0, 512, "live"⟩ a = true ∧
      Test 8 8 ⟨some [2], 8, 0, 512, "mark"⟩ a = false :=
  sweepWalk_spec 8 8 ⟨some [7], 8, 0, 512, "live"⟩ ⟨some [2], 8, 0, 512, "mark"⟩
    0 512 1 (by decide) (by decide) (by decide) (by decide) (by decide) (by decide)
    (by decide) (by decide)

end SpaceBitmap
